import Mathlib

/-!
Verification of the value→key tracking store of the
`contentstorage-i18next-plugin` repository against its specification.

The definitions below are a shallow embedding of `src/utils.ts` (and, where
noted, of the specification for code that is referenced but absent from the
source tree).  JavaScript `Map` objects are modelled as insertion-ordered
association lists with unique keys, JavaScript `Set` objects as
insertion-ordered duplicate-free lists, and `Date.now()` as an explicit
`now : Nat` argument.
-/

namespace ContentStorage

/-! ## Generic JS `Map` / `Set` operations -/

/-- `Map.get`: the value stored under `k`, if any (association lists keep the
first — and in a well-formed map, only — binding for a key). -/
def mapLookup {α : Type} (k : String) (m : List (String × α)) : Option α :=
  (m.find? (fun kv => kv.1 == k)).map (fun kv => kv.2)

/-- `Map.set`: replace the binding of `k` in place if present (keeping its
position, as JS `Map.set` does), otherwise append the new binding. -/
def mapSet {α : Type} (k : String) (v : α) (m : List (String × α)) : List (String × α) :=
  if m.any (fun kv => kv.1 == k) then
    m.map (fun kv => if kv.1 == k then (k, v) else kv)
  else
    m ++ [(k, v)]

/-- `Map.delete`: remove the (first) binding for `k`, keeping the order of the
remaining bindings, as JS `Map.delete` does. -/
def mapDelete {α : Type} (m : List (String × α)) (k : String) : List (String × α) :=
  m.eraseP (fun kv => kv.1 == k)

/-- `Set.add`: append the element if it is not already present (JS sets keep
insertion order). -/
def setAdd (s : List String) (x : String) : List String :=
  if x ∈ s then s else s ++ [x]

/-! ## Data model (from `src/types.ts`) -/

/-- The optional fields of `MemoryMapEntry.metadata` in `src/types.ts`
(`namespace?`, `language?`, `trackedAt?`). -/
structure EntryMetadata where
  /-- `namespace?: string` -/
  ns? : Option String
  /-- `language?: string` -/
  lang? : Option String
  /-- `trackedAt?: number` (a `Date.now()` millisecond timestamp) -/
  trackedAt? : Option Nat
deriving DecidableEq, Repr

/-- `MemoryMapEntry` from `src/types.ts`: the record stored for one rendered
text value. -/
structure MemoryMapEntry where
  /-- `ids: Set<string>` — the translation keys that produced this value. -/
  ids : List String
  /-- `type: 'text'` -/
  type : String
  /-- `metadata?: {...}` -/
  metadata? : Option EntryMetadata
deriving DecidableEq, Repr

/-- `MemoryMap = Map<string, MemoryMapEntry>`, keyed by the rendered value. -/
abbrev MemoryMap : Type := List (String × MemoryMapEntry)

/-! ## Key normalization (`normalizeKey`, `src/utils.ts` lines 148–163) -/

/-- JS `String.prototype.replace(':', '.')`: replace only the first
occurrence of `':'` by `'.'`. -/
def replaceFirstColon : List Char → List Char
  | [] => []
  | c :: cs => if c = ':' then '.' :: cs else c :: replaceFirstColon cs

/-- The body of `normalizeKey` on the character list of the key:
`if (normalizedKey.includes(':')) normalizedKey = normalizedKey.replace(':', '.')`. -/
def normalizeChars (l : List Char) : List Char :=
  if ':' ∈ l then replaceFirstColon l else l

/-- `normalizeKey(key, namespace?)` from `src/utils.ts`: converts the first
colon to a dot; the `namespace` parameter is kept for backward compatibility
but not used (`void namespace` in the source). -/
def normalizeKey (key : String) (ns : Option String) : String :=
  ⟨normalizeChars key.data⟩

/-! ## Base-key extraction (`extractBaseKey`, `src/utils.ts` lines 177–195) -/

/-- The alternatives of the regex `/_(zero|one|two|few|many|other|plural)$/`,
in the order they appear in the source. -/
def pluralSuffixes : List String :=
  ["zero", "one", "two", "few", "many", "other", "plural"]

/-- `extractBaseKey(key)` from `src/utils.ts`: strips a trailing
`_zero|_one|_two|_few|_many|_other|_plural` suffix via
`key.replace(/_(zero|one|two|few|many|other|plural)$/, '')`.  (The remainder
of the source function is an explicit no-op heuristic for context suffixes —
it computes a candidate suffix and intentionally does nothing with it — so it
is not reflected here.) -/
def extractBaseKey (key : String) : String :=
  match pluralSuffixes.find? (fun suf => (("_" ++ suf).data).isSuffixOf key.data) with
  | some suf => ⟨key.data.take (key.data.length - (suf.length + 1))⟩
  | none => key

/-! ## Translation tracking (`trackTranslation`, `src/utils.ts` lines 221–259)

The store is `window.memoryMap`, possibly absent: we model the window state as
`Option MemoryMap` (`none` = `getMemoryMap()` returned `null`).  `Date.now()`
is the explicit `now` argument; the `debug` logging parameter has no effect on
the store and is omitted. -/

/-- `trackTranslation(translationValue, translationKey, namespace?, language?)`
from `src/utils.ts`: no-op when the memory map is missing; otherwise
normalizes the key, adds it to the (existing or fresh) id set of the entry for
`value`, and writes the entry back with fresh metadata. -/
def trackTranslation (value key : String) (ns lang : Option String) (now : Nat)
    (st : Option MemoryMap) : Option MemoryMap :=
  match st with
  | none => none
  | some m =>
    let normalizedKey := normalizeKey key ns
    let idSet := match mapLookup value m with
      | some e => e.ids
      | none => []
    let idSet := setAdd idSet normalizedKey
    let entry : MemoryMapEntry :=
      { ids := idSet
        type := "text"
        metadata? := some { ns? := ns, lang? := lang, trackedAt? := some now } }
    some (mapSet value entry m)

/-! ## Eviction (`cleanupMemoryMap`, `src/utils.ts` lines 267–288) -/

/-- `value.metadata?.trackedAt || 0`: the timestamp used for eviction
ordering; `0` when the metadata or the `trackedAt` field is missing. -/
def effTimestamp (e : MemoryMapEntry) : Nat :=
  (e.metadata?.bind (fun md => md.trackedAt?)).getD 0

/-- The `{ key, value, timestamp }` records built by `cleanupMemoryMap`. -/
structure CleanupItem where
  key : String
  value : MemoryMapEntry
  timestamp : Nat
deriving DecidableEq, Repr

/-- One step of the stable ascending sort by `timestamp`
(`entries.sort((a, b) => a.timestamp - b.timestamp)`). -/
def insertByTs (x : CleanupItem) : List CleanupItem → List CleanupItem
  | [] => [x]
  | y :: ys => if x.timestamp ≤ y.timestamp then x :: y :: ys else y :: insertByTs x ys

/-- Stable insertion sort, ascending by `timestamp`: the model of the
JavaScript `Array.prototype.sort` call in `cleanupMemoryMap`. -/
def sortByTs : List CleanupItem → List CleanupItem
  | [] => []
  | x :: xs => insertByTs x (sortByTs xs)

/-- `cleanupMemoryMap(maxSize)` from `src/utils.ts`: when the store holds more
than `maxSize` entries, sorts all entries ascending by
`metadata?.trackedAt || 0` and deletes the first `size - maxSize` keys. -/
def cleanupMemoryMap (maxSize : Nat) (st : Option MemoryMap) : Option MemoryMap :=
  match st with
  | none => none
  | some m =>
    if m.length ≤ maxSize then some m
    else
      let entries := m.map (fun kv => CleanupItem.mk kv.1 kv.2 (effTimestamp kv.2))
      let sorted := sortByTs entries
      let toRemove := m.length - maxSize
      some (((sorted.take toRemove).map CleanupItem.key).foldl mapDelete m)

/-! ## Bulk flatten helper (`flattenTranslations`, `src/utils.ts` lines 297–318) -/

/-- A JSON-like translation value: the possible shapes of the `any`-typed
values traversed by `flattenTranslations` (strings, nested plain objects, and
the non-string leaves the source skips: numbers, arrays, `null`). -/
inductive TransValue where
  | str : String → TransValue
  | num : Int → TransValue
  | null : TransValue
  | arr : List TransValue → TransValue
  | obj : List (String × TransValue) → TransValue

/-- `flattenTranslations(obj, prefix)` from `src/utils.ts`, on the
insertion-ordered own-property list of a translation object: pushes
`(fullKey, value)` for string values, recurses into plain objects (not
arrays, not `null`), and skips every other value.  `fullKey` is
``prefix ? `${prefix}.${key}` : key``. -/
def flattenTranslations : List (String × TransValue) → String → List (String × String)
  | [], _ => []
  | (key, value) :: rest, pfx =>
    let fullKey := if pfx = "" then key else pfx ++ "." ++ key
    (match value with
     | .str s => [(fullKey, s)]
     | .obj fields => flattenTranslations fields fullKey
     | _ => []) ++ flattenTranslations rest pfx

/-- Spec-side description (§4.3): the depth-first list of
`(path segments, value)` pairs of exactly the string leaves of a translation
object, in the input's own enumeration order. -/
def stringLeaves : List (String × TransValue) → List (List String × String)
  | [] => []
  | (key, value) :: rest =>
    (match value with
     | .str s => [([key], s)]
     | .obj fields => (stringLeaves fields).map (fun ps => (key :: ps.1, ps.2))
     | _ => []) ++ stringLeaves rest

/-- Spec-side description (§4.3): joining path segments with `.`. -/
def dotJoin : List String → String
  | [] => ""
  | [k] => k
  | k :: p => k ++ "." ++ dotJoin p

/-- Spec-side description: joining a path under an accumulated prefix; an
empty prefix contributes nothing. -/
def joinPfx (pfx : String) (p : List String) : String :=
  if pfx = "" then dotJoin p else pfx ++ "." ++ dotJoin p

/-- All keys of a translation object are non-empty strings, recursively. -/
def keysNonempty : List (String × TransValue) → Prop
  | [] => True
  | (key, value) :: rest =>
    key ≠ "" ∧
    (match value with
     | .obj fields => keysNonempty fields
     | _ => True) ∧
    keysNonempty rest

instance : ∀ l, Decidable (keysNonempty l)
  | [] => by unfold keysNonempty; exact inferInstance
  | (key, value) :: rest => by
    unfold keysNonempty
    have _ : Decidable (keysNonempty rest) := instDecidableKeysNonempty rest
    match value with
    | .obj fields =>
      have _ : Decidable (keysNonempty fields) := instDecidableKeysNonempty fields
      exact inferInstance
    | .str _ => exact inferInstance
    | .num _ => exact inferInstance
    | .null => exact inferInstance
    | .arr _ => exact inferInstance

/-! ## Variables-aware tracking, modelled from the spec

`src/post-processor.ts` (lines 91–101) extracts a `variables` mapping with
`extractUserVariables(options)` and passes it as a sixth argument to
`trackTranslation`, and the repository's test suite exercises that sixth
argument, but the variables-aware bodies of `trackTranslation` and
`extractUserVariables` are absent from `src/utils.ts` (the file holds an
older five-parameter `trackTranslation`).  The definitions below model the
missing behaviour from the spec (§3 `TrackedEntry.variables`, §4.2 `track`). -/

/-- A call-site variables mapping (spec: `mapping string→any`; values are
modelled as strings, which the variables merge rule never inspects). -/
abbrev VarMap : Type := List (String × String)

/-- Modelled from the spec: the `TrackedEntry` record of §3, including the
`variables` field that the source's `MemoryMapEntry` (older `src/types.ts`)
lacks. -/
structure SpecEntry where
  /-- §3 `keys`: all canonical keys observed for this value. -/
  keys : List String
  /-- §3 `kind`: fixed tag `"text"`. -/
  kind : String
  /-- §3 `namespace`: namespace of the most recent write. -/
  ns? : Option String
  /-- §3 `language`: language code of the most recent write. -/
  lang? : Option String
  /-- §3 `trackedAt`: timestamp of the most recent write. -/
  trackedAt : Nat
  /-- §3 `variables`: sticky call-site variables of the most recent write
  that supplied them. -/
  vars? : Option VarMap
deriving DecidableEq, Repr

/-- The spec-modelled tracking store. -/
abbrev SpecStore : Type := List (String × SpecEntry)

/-- Modelled from the spec: `track(value, rawKey, namespace?, language?,
variables?)` of §4.2 — no-op on an uninitialized store, skip on empty value,
normalize the key, union it into `keys`, latest-write-wins for the scalar
fields, and the variables merge rule: a present non-empty mapping replaces
the stored one wholesale, otherwise the stored one is left untouched. -/
def trackSpec (value key : String) (ns lang : Option String) (now : Nat)
    (vars : Option VarMap) (st : Option SpecStore) : Option SpecStore :=
  match st with
  | none => none
  | some m =>
    if value = "" then some m
    else
      let nk := normalizeKey key ns
      let old := mapLookup value m
      let keys := setAdd (match old with | some e => e.keys | none => []) nk
      let keptVars : Option VarMap := old.bind (fun e => e.vars?)
      let newVars : Option VarMap :=
        match vars with
        | some vs => if vs = ([] : List (String × String)) then keptVars else some vs
        | none => keptVars
      some (mapSet value
        { keys := keys, kind := "text", ns? := ns, lang? := lang,
          trackedAt := now, vars? := newVars } m)

/-! ## Lemmas about key normalization -/

theorem replaceFirstColon_of_not_mem {l : List Char} (h : ':' ∉ l) :
    replaceFirstColon l = l := by
  induction l with
  | nil => rfl
  | cons c cs ih =>
    simp only [List.mem_cons, not_or] at h
    simp only [replaceFirstColon, if_neg (Ne.symm h.1)]
    rw [ih h.2]

theorem normalizeChars_of_not_mem {l : List Char} (h : ':' ∉ l) :
    normalizeChars l = l := by
  rw [normalizeChars, if_neg h]

theorem replaceFirstColon_append {l₁ l₂ : List Char} (h : ':' ∉ l₁) :
    replaceFirstColon (l₁ ++ ':' :: l₂) = l₁ ++ '.' :: l₂ := by
  induction l₁ with
  | nil => simp [replaceFirstColon]
  | cons c cs ih =>
    simp only [List.mem_cons, not_or] at h
    show replaceFirstColon (c :: (cs ++ ':' :: l₂)) = c :: (cs ++ '.' :: l₂)
    simp only [replaceFirstColon, if_neg (Ne.symm h.1)]
    rw [ih h.2]

theorem not_mem_replaceFirstColon {l : List Char} (h : l.count ':' = 1) :
    ':' ∉ replaceFirstColon l := by
  induction l with
  | nil => simp [replaceFirstColon]
  | cons c cs ih =>
    by_cases hc : c = ':'
    · subst hc
      rw [List.count_cons_self] at h
      have hcs : ':' ∉ cs := List.count_eq_zero.mp (by omega)
      have hr : replaceFirstColon (':' :: cs) = '.' :: cs := by
        simp [replaceFirstColon]
      rw [hr]
      simp only [List.mem_cons, not_or]
      exact ⟨by decide, hcs⟩
    · rw [List.count_cons_of_ne (Ne.symm hc)] at h
      simp only [replaceFirstColon, if_neg hc, List.mem_cons, not_or]
      exact ⟨Ne.symm hc, ih h⟩

theorem normalizeChars_idem {l : List Char} (h : l.count ':' ≤ 1) :
    normalizeChars (normalizeChars l) = normalizeChars l := by
  by_cases hm : ':' ∈ l
  · have h1 : l.count ':' = 1 :=
      Nat.le_antisymm h (List.count_pos_iff.mpr hm)
    have hinner : normalizeChars l = replaceFirstColon l := by
      rw [normalizeChars, if_pos hm]
    rw [hinner, normalizeChars_of_not_mem (not_mem_replaceFirstColon h1)]
  · rw [normalizeChars_of_not_mem hm]
    exact normalizeChars_of_not_mem hm

/-- **C2 — counterexample.** The claim that `normalizeKey` is idempotent for
every string fails for a key with two colons: `normalize("a:b:c") = "a.b:c"`,
and normalizing again turns the remaining colon into a dot as well. -/
theorem normalizeKey_not_idempotent_on_two_colons :
    normalizeKey (normalizeKey "a:b:c" none) none ≠ normalizeKey "a:b:c" none := by
  decide

/-- **C2 (amended).** Key normalization is idempotent on every key containing
at most one colon (in particular on every already-normalized key that still
has at most one colon); a key with two or more colons gains one more dot per
application. -/
theorem normalizeKey_idem_of_count_le_one (k : String) (h : k.data.count ':' ≤ 1) :
    normalizeKey (normalizeKey k none) none = normalizeKey k none :=
  String.ext (normalizeChars_idem h)

/-- Witness for the amended C2 at the concrete key `"common:welcome"`. -/
theorem normalizeKey_idem_witness :
    normalizeKey (normalizeKey "common:welcome" none) none
      = normalizeKey "common:welcome" none :=
  normalizeKey_idem_of_count_le_one "common:welcome" (by decide)

/-- **C6.** `normalizeKey` replaces exactly the first colon of the raw key
with a dot and changes nothing else; a key without a colon is returned
unchanged. -/
theorem normalizeKey_replaces_first_colon :
    (∀ (k : String) (ns : Option String), ':' ∉ k.data → normalizeKey k ns = k) ∧
    (∀ (s t : String) (ns : Option String), ':' ∉ s.data →
      normalizeKey (s ++ ":" ++ t) ns = s ++ "." ++ t) := by
  constructor
  · intro k ns h
    exact String.ext (normalizeChars_of_not_mem h)
  · intro s t ns h
    apply String.ext
    show normalizeChars (s ++ ":" ++ t).data = (s ++ "." ++ t).data
    have hdot : (s ++ "." ++ t).data = s.data ++ '.' :: t.data := by
      simp [String.data_append]
    have hcol : (s ++ ":" ++ t).data = s.data ++ ':' :: t.data := by
      simp [String.data_append]
    rw [hcol, hdot, normalizeChars,
        if_pos (List.mem_append_right s.data (List.mem_cons_self ':' t.data)),
        replaceFirstColon_append h]

/-- Witness for C6 at `"a" ++ ":" ++ "b:c"` (= `"a:b:c"` → `"a.b:c"`) and at
the colon-free key `"welcome"`. -/
theorem normalizeKey_replaces_first_colon_witness :
    normalizeKey "welcome" none = "welcome" ∧
    normalizeKey ("a" ++ ":" ++ "b:c") none = "a" ++ "." ++ "b:c" :=
  ⟨normalizeKey_replaces_first_colon.1 "welcome" none (by decide),
   normalizeKey_replaces_first_colon.2 "a" "b:c" none (by decide)⟩

/-- **C8.** The normalizer's output does not depend on its namespace
argument: the `namespace` parameter is dead (`void namespace` in the source),
so any two namespace arguments — including an absent one — give the same
result, and no namespace prefix is ever prepended. -/
theorem normalizeKey_independent_of_ns :
    ∀ (k : String) (ns₁ ns₂ : Option String), normalizeKey k ns₁ = normalizeKey k ns₂ :=
  fun _ _ _ => rfl

/-! ## Lemmas about base-key extraction -/

theorem find?_eq_some_of_mem_of_unique {α : Type} {p : α → Bool} :
    ∀ {l : List α} {x : α}, x ∈ l → p x = true → (∀ y ∈ l, p y = true → y = x) →
      l.find? p = some x := by
  intro l
  induction l with
  | nil => intro x hx _ _; cases hx
  | cons a as ih =>
    intro x hx hpx huniq
    by_cases ha : p a = true
    · rw [List.find?_cons_of_pos _ ha]
      exact congrArg some (huniq a (List.mem_cons_self a as) ha)
    · rw [List.find?_cons_of_neg _ (by simpa using ha)]
      have hx' : x ∈ as := by
        rcases List.mem_cons.mp hx with h | h
        · exact absurd (h ▸ hpx) ha
        · exact h
      exact ih hx' hpx (fun y hy hpy => huniq y (List.mem_cons_of_mem a hy) hpy)

/-- Two underscore-free suffix candidates that both match at the end of the
same key are equal: the underscore of the shorter match would have to occur
inside the longer candidate, which is underscore-free. -/
theorem plural_suffix_unique {s₁ s₂ : String} {b : List Char}
    (h₁ : '_' ∉ s₁.data) (h₂ : '_' ∉ s₂.data)
    (hs : ('_' :: s₁.data) <:+ (b ++ '_' :: s₂.data)) : s₁ = s₂ := by
  have hs₂ : ('_' :: s₂.data) <:+ (b ++ '_' :: s₂.data) := List.suffix_append b _
  rcases Nat.lt_trichotomy s₁.data.length s₂.data.length with hlt | heq | hgt
  · have hsub : ('_' :: s₁.data) <:+ ('_' :: s₂.data) :=
      List.suffix_of_suffix_length_le hs hs₂ (by simp only [List.length_cons]; omega)
    obtain ⟨t, ht⟩ := hsub
    cases t with
    | nil =>
      have := congrArg List.length ht
      simp only [List.nil_append, List.length_cons] at this
      omega
    | cons c t' =>
      rw [List.cons_append] at ht
      injection ht with _ hrest
      exact absurd (hrest ▸ List.mem_append_right t' (List.mem_cons_self '_' s₁.data)) h₂
  · have hsub : ('_' :: s₁.data) <:+ ('_' :: s₂.data) :=
      List.suffix_of_suffix_length_le hs hs₂ (by simp only [List.length_cons]; omega)
    have := hsub.eq_of_length (by simp only [List.length_cons]; omega)
    injection this with _ hdata
    exact String.ext hdata
  · have hsub : ('_' :: s₂.data) <:+ ('_' :: s₁.data) :=
      List.suffix_of_suffix_length_le hs₂ hs (by simp only [List.length_cons]; omega)
    obtain ⟨t, ht⟩ := hsub
    cases t with
    | nil =>
      have := congrArg List.length ht
      simp only [List.nil_append, List.length_cons] at this
      omega
    | cons c t' =>
      rw [List.cons_append] at ht
      injection ht with _ hrest
      exact absurd (hrest ▸ List.mem_append_right t' (List.mem_cons_self '_' s₂.data)) h₁

set_option maxRecDepth 4000 in
theorem pluralSuffixes_no_underscore : ∀ s ∈ pluralSuffixes, '_' ∉ s.data := by
  decide

/-- **C9.** `extractBaseKey` strips a trailing `_zero`/`_one`/`_two`/`_few`/
`_many`/`_other`/`_plural` suffix and returns every other key — in particular
one with a different trailing underscore suffix — unchanged. -/
theorem extractBaseKey_strips_exactly_plural_suffixes :
    (∀ (base suf : String), suf ∈ pluralSuffixes →
      extractBaseKey (base ++ "_" ++ suf) = base) ∧
    (∀ key : String, (∀ suf ∈ pluralSuffixes, ¬ ('_' :: suf.data) <:+ key.data) →
      extractBaseKey key = key) := by
  constructor
  · intro base suf hsuf
    have hkey : (base ++ "_" ++ suf).data = base.data ++ '_' :: suf.data := by
      simp [String.data_append]
    have hus : ("_" ++ suf).data = '_' :: suf.data := by
      simp [String.data_append]
    rw [extractBaseKey, find?_eq_some_of_mem_of_unique hsuf
        (by rw [List.isSuffixOf_iff_suffix, hus, hkey]; exact List.suffix_append _ _)
        (fun y hy hpy => by
          rw [List.isSuffixOf_iff_suffix, hkey] at hpy
          have hyd : ("_" ++ y).data = '_' :: y.data := by
            simp [String.data_append]
          rw [hyd] at hpy
          exact plural_suffix_unique (pluralSuffixes_no_underscore y hy)
            (pluralSuffixes_no_underscore suf hsuf) hpy)]
    apply String.ext
    show (base ++ "_" ++ suf).data.take ((base ++ "_" ++ suf).data.length - (suf.length + 1))
        = base.data
    have hlen : (base ++ "_" ++ suf).data.length - (suf.length + 1) = base.data.length := by
      rw [hkey]
      have hsl : suf.length = suf.data.length := rfl
      simp only [List.length_append, List.length_cons]
      omega
    rw [hlen, hkey, List.take_left]
  · intro key hkey
    rw [extractBaseKey, List.find?_eq_none.mpr]
    intro suf hsuf
    rw [List.isSuffixOf_iff_suffix]
    have : ("_" ++ suf).data = '_' :: suf.data := by simp [String.data_append]
    rw [this]
    exact hkey suf hsuf

/-- Witness for C9: `"items_plural"` → `"items"` and `"hello_world"`
unchanged. -/
theorem extractBaseKey_witness :
    extractBaseKey ("items" ++ "_" ++ "plural") = "items" ∧
    extractBaseKey "hello_world" = "hello_world" :=
  ⟨extractBaseKey_strips_exactly_plural_suffixes.1 "items" "plural" (by decide),
   extractBaseKey_strips_exactly_plural_suffixes.2 "hello_world" (by decide)⟩

/-! ## Lemmas about the generic map operations -/

theorem mapLookup_map_keep {α : Type} {k k' : String} (hne : k ≠ k') (v : α) :
    ∀ m : List (String × α),
      mapLookup k (m.map (fun kv => if kv.1 == k' then (k', v) else kv)) = mapLookup k m := by
  intro m
  induction m with
  | nil => rfl
  | cons a t ih =>
    by_cases ha : a.1 = k'
    · have h1 : (if a.1 == k' then (k', v) else a) = (k', v) := by simp [ha]
      rw [List.map_cons, h1, mapLookup, List.find?_cons_of_neg _ (by simp [Ne.symm hne]),
          mapLookup, List.find?_cons_of_neg _ (by simp [ha, Ne.symm hne])]
      exact ih
    · have h1 : (if a.1 == k' then (k', v) else a) = a := by simp [ha]
      rw [List.map_cons, h1]
      by_cases hk : a.1 = k
      · rw [mapLookup, List.find?_cons_of_pos _ (by simp [hk]),
            mapLookup, List.find?_cons_of_pos _ (by simp [hk])]
      · rw [mapLookup, List.find?_cons_of_neg _ (by simp [hk]),
            mapLookup, List.find?_cons_of_neg _ (by simp [hk])]
        exact ih

theorem mapLookup_map_replace {α : Type} {k : String} (v : α) :
    ∀ m : List (String × α), m.any (fun kv => kv.1 == k) = true →
      mapLookup k (m.map (fun kv => if kv.1 == k then (k, v) else kv)) = some v := by
  intro m
  induction m with
  | nil => intro h; cases h
  | cons a t ih =>
    intro hany
    by_cases ha : a.1 = k
    · have h1 : (if a.1 == k then (k, v) else a) = (k, v) := by simp [ha]
      rw [List.map_cons, h1, mapLookup, List.find?_cons_of_pos _ (by simp)]
      rfl
    · have h1 : (if a.1 == k then (k, v) else a) = a := by simp [ha]
      rw [List.map_cons, h1, mapLookup, List.find?_cons_of_neg _ (by simp [ha])]
      have htany : t.any (fun kv => kv.1 == k) = true := by
        simp only [List.any_cons, Bool.or_eq_true] at hany
        rcases hany with h | h
        · exact absurd (by simpa using h) ha
        · exact h
      exact ih htany

theorem mapLookup_eq_none_iff {α : Type} {k : String} {m : List (String × α)} :
    mapLookup k m = none ↔ m.any (fun kv => kv.1 == k) = false := by
  rw [mapLookup, Option.map_eq_none', List.find?_eq_none, List.any_eq_false]

/-- The fundamental lookup/update law of the JS `Map` model. -/
theorem mapLookup_mapSet {α : Type} (k k' : String) (v : α) (m : List (String × α)) :
    mapLookup k (mapSet k' v m) = if k = k' then some v else mapLookup k m := by
  rw [mapSet]
  by_cases hany : m.any (fun kv => kv.1 == k') = true
  · rw [if_pos hany]
    by_cases hk : k = k'
    · subst hk
      rw [if_pos rfl]
      exact mapLookup_map_replace v m hany
    · rw [if_neg hk]
      exact mapLookup_map_keep hk v m
  · rw [if_neg hany]
    by_cases hk : k = k'
    · subst hk
      rw [if_pos rfl, mapLookup]
      have hfalse : m.any (fun kv => kv.1 == k) = false := by
        rwa [Bool.not_eq_true] at hany
      have hf : m.find? (fun kv => kv.1 == k) = none :=
        List.find?_eq_none.mpr (List.any_eq_false.mp hfalse)
      rw [List.find?_append, hf]
      simp
    · rw [if_neg hk, mapLookup, List.find?_append]
      have h2 : List.find? (fun kv => kv.1 == k) [(k', v)] = none := by
        simp [Ne.symm hk]
      rw [h2]
      simp [mapLookup]

theorem mapSet_eq_append {α : Type} {v : String} {m : List (String × α)} (e : α)
    (h : m.any (fun kv => kv.1 == v) = false) :
    mapSet v e m = m ++ [(v, e)] := by
  rw [mapSet, if_neg]
  rw [h]
  exact Bool.false_ne_true

theorem countP_key_mapSet_present {α : Type} (v : String) (e : α) (m : List (String × α))
    (h : m.any (fun kv => kv.1 == v) = true) :
    (mapSet v e m).countP (fun kv => kv.1 == v) = m.countP (fun kv => kv.1 == v) := by
  rw [mapSet, if_pos h, List.countP_map]
  exact List.countP_congr (fun kv _ => by
    by_cases hkv : kv.1 = v <;> simp [Function.comp, hkv])

theorem mem_setAdd {s : List String} {x : String} (y : String) (h : x ∈ s) :
    x ∈ setAdd s y := by
  rw [setAdd]
  split
  · exact h
  · exact List.mem_append_left _ h

/-- Unfolding `trackTranslation` on an initialized store. -/
theorem trackTranslation_step (v k : String) (ns lang : Option String) (now : Nat)
    (m : MemoryMap) :
    trackTranslation v k ns lang now (some m)
      = some (mapSet v
          { ids := setAdd (match mapLookup v m with | some e0 => e0.ids | none => [])
              (normalizeKey k ns)
            type := "text"
            metadata? := some { ns? := ns, lang? := lang, trackedAt? := some now } } m) := rfl

/-- `trackTranslation` on a store with no entry for the value yet. -/
theorem trackTranslation_step_fresh (v k : String) (ns lang : Option String) (now : Nat)
    (m : MemoryMap) (h : mapLookup v m = none) :
    trackTranslation v k ns lang now (some m)
      = some (mapSet v
          { ids := [normalizeKey k ns]
            type := "text"
            metadata? := some { ns? := ns, lang? := lang, trackedAt? := some now } } m) := by
  rw [trackTranslation_step, h]
  rfl

/-- `trackTranslation` on a store that already has an entry for the value. -/
theorem trackTranslation_step_existing (v k : String) (ns lang : Option String) (now : Nat)
    (m : MemoryMap) (e : MemoryMapEntry) (h : mapLookup v m = some e) :
    trackTranslation v k ns lang now (some m)
      = some (mapSet v
          { ids := setAdd e.ids (normalizeKey k ns)
            type := "text"
            metadata? := some { ns? := ns, lang? := lang, trackedAt? := some now } } m) := by
  rw [trackTranslation_step, h]

/-! ## C5: `trackTranslation` on empty values and uninitialized stores -/

/-- **C5 — counterexample.** The claim that a `trackTranslation` call with an
empty value leaves the store unchanged fails: the source function has no
empty-value guard, so `track("", "k")` on an initialized empty store creates
an entry keyed by the empty string. -/
theorem trackTranslation_empty_value_counterexample :
    trackTranslation "" "k" none none 0 (some ([] : MemoryMap)) ≠ some ([] : MemoryMap) ∧
    mapLookup "" ((trackTranslation "" "k" none none 0 (some ([] : MemoryMap))).getD [])
      = some { ids := ["k"], type := "text",
               metadata? := some { ns? := none, lang? := none, trackedAt? := some 0 } } := by
  decide

/-- **C5 (amended).** `trackTranslation` never throws and is a strict no-op
when the store has not been initialized; but on an initialized store every
call — including one with an empty value — creates or updates the entry for
its value (the empty-value skip is performed by the bulk-loading caller in
`plugin.ts`, not by `trackTranslation` itself). -/
theorem trackTranslation_permissive_amended :
    ∀ (v k : String) (ns lang : Option String) (now : Nat),
      trackTranslation v k ns lang now none = none ∧
      ∀ m : MemoryMap,
        (mapLookup v ((trackTranslation v k ns lang now (some m)).getD [])).isSome = true := by
  intro v k ns lang now
  refine ⟨rfl, ?_⟩
  intro m
  rw [trackTranslation_step, Option.getD_some, mapLookup_mapSet, if_pos rfl]
  rfl

/-! ## C4: key sets accumulate and never shrink -/

/-- **C4.** On an initialized store: (1) tracking a fresh non-empty value
under two raw keys with different normalized forms yields exactly one entry
for that value, whose key set is exactly the two normalized keys (size 2);
(2) a further track call never removes a key from an entry's key set. -/
theorem trackTranslation_keys_accumulate :
    (∀ (m : MemoryMap) (v k₁ k₂ : String) (ns₁ ns₂ lang₁ lang₂ : Option String) (t₁ t₂ : Nat),
      v ≠ "" → mapLookup v m = none →
      normalizeKey k₁ ns₁ ≠ normalizeKey k₂ ns₂ →
      ∃ (m₂ : MemoryMap) (e : MemoryMapEntry),
        trackTranslation v k₂ ns₂ lang₂ t₂ (trackTranslation v k₁ ns₁ lang₁ t₁ (some m))
          = some m₂ ∧
        m₂.countP (fun kv => kv.1 == v) = 1 ∧
        mapLookup v m₂ = some e ∧
        e.ids = [normalizeKey k₁ ns₁, normalizeKey k₂ ns₂]) ∧
    (∀ (m : MemoryMap) (v v' k : String) (ns lang : Option String) (t : Nat)
      (e : MemoryMapEntry),
      mapLookup v m = some e →
      ∃ (m' : MemoryMap) (e' : MemoryMapEntry),
        trackTranslation v' k ns lang t (some m) = some m' ∧
        mapLookup v m' = some e' ∧ ∀ x ∈ e.ids, x ∈ e'.ids) := by
  constructor
  · intro m v k₁ k₂ ns₁ ns₂ lang₁ lang₂ t₁ t₂ hv hnone hkeys
    have hanyfalse : m.any (fun kv => kv.1 == v) = false := mapLookup_eq_none_iff.mp hnone
    have hm1 := trackTranslation_step_fresh v k₁ ns₁ lang₁ t₁ m hnone
    have hlook1 : mapLookup v (mapSet v
          { ids := [normalizeKey k₁ ns₁], type := "text",
            metadata? := some { ns? := ns₁, lang? := lang₁, trackedAt? := some t₁ } } m)
        = some { ids := [normalizeKey k₁ ns₁], type := "text",
                 metadata? := some { ns? := ns₁, lang? := lang₁, trackedAt? := some t₁ } } := by
      rw [mapLookup_mapSet, if_pos rfl]
    have hm2 := trackTranslation_step_existing v k₂ ns₂ lang₂ t₂ _ _ hlook1
    have hsa2 : setAdd (MemoryMapEntry.ids
          { ids := [normalizeKey k₁ ns₁], type := "text",
            metadata? := some { ns? := ns₁, lang? := lang₁, trackedAt? := some t₁ } })
          (normalizeKey k₂ ns₂)
        = [normalizeKey k₁ ns₁, normalizeKey k₂ ns₂] := by
      show setAdd [normalizeKey k₁ ns₁] (normalizeKey k₂ ns₂) = _
      rw [setAdd, if_neg]
      · rfl
      · rw [List.mem_singleton]
        exact Ne.symm hkeys
    rw [hsa2] at hm2
    refine ⟨_,
      { ids := [normalizeKey k₁ ns₁, normalizeKey k₂ ns₂], type := "text",
        metadata? := some { ns? := ns₂, lang? := lang₂, trackedAt? := some t₂ } },
      by rw [hm1, hm2], ?_, ?_, rfl⟩
    · rw [mapSet_eq_append _ hanyfalse, countP_key_mapSet_present]
      · rw [List.countP_append, List.countP_eq_zero.mpr (List.any_eq_false.mp hanyfalse)]
        simp
      · simp
    · rw [mapLookup_mapSet, if_pos rfl]
  · intro m v v' k ns lang t e he
    by_cases hv : v = v'
    · subst hv
      refine ⟨_,
        { ids := setAdd e.ids (normalizeKey k ns), type := "text",
          metadata? := some { ns? := ns, lang? := lang, trackedAt? := some t } },
        trackTranslation_step_existing v k ns lang t m e he, ?_, ?_⟩
      · rw [mapLookup_mapSet, if_pos rfl]
      · intro x hx
        exact mem_setAdd _ hx
    · refine ⟨_, e, trackTranslation_step v' k ns lang t m, ?_, fun x hx => hx⟩
      rw [mapLookup_mapSet, if_neg hv, he]

/-- Witness for C4 at a concrete fresh store: tracking `"Welcome"` under
`"common:welcome"` and then `"homepage.title"` leaves a single entry with
exactly those two normalized keys. -/
theorem trackTranslation_keys_accumulate_witness :
    ∃ (m₂ : MemoryMap) (e : MemoryMapEntry),
      trackTranslation "Welcome" "homepage.title" none (some "en") 2
          (trackTranslation "Welcome" "common:welcome" none (some "en") 1 (some []))
        = some m₂ ∧
      m₂.countP (fun kv => kv.1 == "Welcome") = 1 ∧
      mapLookup "Welcome" m₂ = some e ∧
      e.ids = [normalizeKey "common:welcome" none, normalizeKey "homepage.title" none] :=
  trackTranslation_keys_accumulate.1 [] "Welcome" "common:welcome" "homepage.title"
    none none (some "en") (some "en") 1 2 (by decide) rfl (by decide)

/-! ## C3: the variables merge rule (spec-modelled) -/

/-- Unfolding the spec-modelled `trackSpec` on an initialized store and a
non-empty value. -/
theorem trackSpec_step (v k : String) (ns lang : Option String) (now : Nat)
    (vars : Option VarMap) (m : SpecStore) (hv : v ≠ "") :
    trackSpec v k ns lang now vars (some m)
      = some (mapSet v
          { keys := setAdd (match mapLookup v m with | some e0 => e0.keys | none => [])
              (normalizeKey k ns)
            kind := "text", ns? := ns, lang? := lang, trackedAt := now
            vars? :=
              match vars with
              | some vs =>
                if vs = ([] : List (String × String)) then mapLookup v m |>.bind (fun e0 => e0.vars?)
                else some vs
              | none => mapLookup v m |>.bind (fun e0 => e0.vars?) } m) := by
  show (if v = "" then some m else _) = _
  rw [if_neg hv]

/-- **C3.** (Spec-modelled `track`.)  On an initialized store, a track call
for a value `v` that supplies no variables, or an empty variables mapping,
leaves the stored variables of `v`'s entry unchanged; a call supplying a
non-empty variables mapping replaces the stored mapping wholesale. -/
theorem trackSpec_variables_rule :
    ∀ (m : SpecStore) (v k : String) (ns lang : Option String) (now : Nat) (e : SpecEntry),
      v ≠ "" → mapLookup v m = some e →
      ((∀ vars : Option VarMap, vars = none ∨ vars = some [] →
        ∃ e', mapLookup v ((trackSpec v k ns lang now vars (some m)).getD []) = some e' ∧
          e'.vars? = e.vars?) ∧
       (∀ vs : VarMap, vs ≠ [] →
        ∃ e', mapLookup v ((trackSpec v k ns lang now (some vs) (some m)).getD [])
            = some e' ∧ e'.vars? = some vs)) := by
  intro m v k ns lang now e hv he
  constructor
  · intro vars hvars
    rw [trackSpec_step v k ns lang now vars m hv, Option.getD_some, mapLookup_mapSet,
        if_pos rfl]
    rcases hvars with h | h
    · subst h
      exact ⟨_, rfl, by rw [he]; rfl⟩
    · subst h
      exact ⟨_, rfl, by rw [he]; rfl⟩
  · intro vs hvs
    rw [trackSpec_step v k ns lang now (some vs) m hv, Option.getD_some, mapLookup_mapSet,
        if_pos rfl]
    exact ⟨_, rfl, by simp [hvs]⟩

/-- Witness for C3 at a concrete store holding variables
`[("userName", "Alice")]`: a variables-free call keeps them, a call with
`[("userName", "Bob")]` replaces them. -/
theorem trackSpec_variables_rule_witness :
    (∃ e', mapLookup "User activity"
        ((trackSpec "User activity" "user.activity" none (some "en") 6 none
          (some [("User activity",
            { keys := ["user.activity"], kind := "text", ns? := none, lang? := some "en",
              trackedAt := 5, vars? := some [("userName", "Alice")] })])).getD [])
        = some e' ∧ e'.vars? = some [("userName", "Alice")]) ∧
    (∃ e', mapLookup "User activity"
        ((trackSpec "User activity" "user.activity" none (some "en") 7
          (some [("userName", "Bob")])
          (some [("User activity",
            { keys := ["user.activity"], kind := "text", ns? := none, lang? := some "en",
              trackedAt := 5, vars? := some [("userName", "Alice")] })])).getD [])
        = some e' ∧ e'.vars? = some [("userName", "Bob")]) :=
  ⟨(trackSpec_variables_rule
      [("User activity",
        { keys := ["user.activity"], kind := "text", ns? := none, lang? := some "en",
          trackedAt := 5, vars? := some [("userName", "Alice")] })]
      "User activity" "user.activity" none (some "en") 6
      { keys := ["user.activity"], kind := "text", ns? := none, lang? := some "en",
        trackedAt := 5, vars? := some [("userName", "Alice")] }
      (by decide) (by decide)).1 none (Or.inl rfl),
   (trackSpec_variables_rule
      [("User activity",
        { keys := ["user.activity"], kind := "text", ns? := none, lang? := some "en",
          trackedAt := 5, vars? := some [("userName", "Alice")] })]
      "User activity" "user.activity" none (some "en") 7
      { keys := ["user.activity"], kind := "text", ns? := none, lang? := some "en",
        trackedAt := 5, vars? := some [("userName", "Alice")] }
      (by decide) (by decide)).2 [("userName", "Bob")] (by decide)⟩

/-! ## C7: the flatten helper -/

theorem flattenTranslations_nil (pfx : String) : flattenTranslations [] pfx = [] := by
  rw [flattenTranslations.eq_def]

theorem flattenTranslations_cons_str (key s : String) (rest : List (String × TransValue))
    (pfx : String) :
    flattenTranslations ((key, TransValue.str s) :: rest) pfx
      = ((if pfx = "" then key else pfx ++ "." ++ key), s) :: flattenTranslations rest pfx := by
  rw [flattenTranslations.eq_def]
  rfl

theorem flattenTranslations_cons_obj (key : String) (fields rest : List (String × TransValue))
    (pfx : String) :
    flattenTranslations ((key, TransValue.obj fields) :: rest) pfx
      = flattenTranslations fields (if pfx = "" then key else pfx ++ "." ++ key)
          ++ flattenTranslations rest pfx := by
  rw [flattenTranslations.eq_def]

theorem flattenTranslations_cons_num (key : String) (n : Int)
    (rest : List (String × TransValue)) (pfx : String) :
    flattenTranslations ((key, TransValue.num n) :: rest) pfx
      = flattenTranslations rest pfx := by
  rw [flattenTranslations.eq_def]
  rfl

theorem flattenTranslations_cons_null (key : String)
    (rest : List (String × TransValue)) (pfx : String) :
    flattenTranslations ((key, TransValue.null) :: rest) pfx
      = flattenTranslations rest pfx := by
  rw [flattenTranslations.eq_def]
  rfl

theorem flattenTranslations_cons_arr (key : String) (xs : List TransValue)
    (rest : List (String × TransValue)) (pfx : String) :
    flattenTranslations ((key, TransValue.arr xs) :: rest) pfx
      = flattenTranslations rest pfx := by
  rw [flattenTranslations.eq_def]
  rfl

theorem stringLeaves_nil : stringLeaves [] = [] := by
  rw [stringLeaves.eq_def]

theorem stringLeaves_cons_str (key s : String) (rest : List (String × TransValue)) :
    stringLeaves ((key, TransValue.str s) :: rest)
      = ([key], s) :: stringLeaves rest := by
  rw [stringLeaves.eq_def]
  rfl

theorem stringLeaves_cons_obj (key : String) (fields rest : List (String × TransValue)) :
    stringLeaves ((key, TransValue.obj fields) :: rest)
      = (stringLeaves fields).map (fun ps => (key :: ps.1, ps.2)) ++ stringLeaves rest := by
  rw [stringLeaves.eq_def]

theorem stringLeaves_cons_num (key : String) (n : Int) (rest : List (String × TransValue)) :
    stringLeaves ((key, TransValue.num n) :: rest) = stringLeaves rest := by
  rw [stringLeaves.eq_def]
  rfl

theorem stringLeaves_cons_null (key : String) (rest : List (String × TransValue)) :
    stringLeaves ((key, TransValue.null) :: rest) = stringLeaves rest := by
  rw [stringLeaves.eq_def]
  rfl

theorem stringLeaves_cons_arr (key : String) (xs : List TransValue)
    (rest : List (String × TransValue)) :
    stringLeaves ((key, TransValue.arr xs) :: rest) = stringLeaves rest := by
  rw [stringLeaves.eq_def]
  rfl

theorem keysNonempty_nil : keysNonempty [] := by
  rw [keysNonempty.eq_def]
  trivial

theorem keysNonempty_cons (key : String) (value : TransValue)
    (rest : List (String × TransValue)) :
    keysNonempty ((key, value) :: rest)
      ↔ key ≠ "" ∧
        (match value with
         | .obj fields => keysNonempty fields
         | _ => True) ∧
        keysNonempty rest := by
  rw [keysNonempty.eq_def]

/-- Every path produced by `stringLeaves` is non-empty. -/
theorem stringLeaves_path_ne_nil :
    ∀ (fields : List (String × TransValue)) (ps : List String × String),
      ps ∈ stringLeaves fields → ps.1 ≠ [] := by
  intro fields
  induction fields with
  | nil =>
    intro ps h
    rw [stringLeaves_nil] at h
    cases h
  | cons kv rest ih =>
    obtain ⟨key, value⟩ := kv
    intro ps h
    cases value with
    | str s =>
      rw [stringLeaves_cons_str] at h
      rcases List.mem_cons.mp h with h | h
      · subst h
        exact List.cons_ne_nil _ _
      · exact ih ps h
    | obj fields' =>
      rw [stringLeaves_cons_obj] at h
      rcases List.mem_append.mp h with h | h
      · obtain ⟨q, _, rfl⟩ := List.mem_map.mp h
        exact List.cons_ne_nil _ _
      · exact ih ps h
    | num n =>
      rw [stringLeaves_cons_num] at h
      exact ih ps h
    | null =>
      rw [stringLeaves_cons_null] at h
      exact ih ps h
    | arr xs =>
      rw [stringLeaves_cons_arr] at h
      exact ih ps h

theorem append_dot_ne_empty (a b : String) : a ++ "." ++ b ≠ "" := by
  intro h
  have hd := congrArg String.length h
  rw [String.length_append, String.length_append] at hd
  have h1 : ("." : String).length = 1 := rfl
  have h0 : ("" : String).length = 0 := rfl
  omega

theorem joinPfx_nil_pfx (p : List String) : joinPfx "" p = dotJoin p := by
  rw [joinPfx, if_pos rfl]

theorem joinPfx_cons (pfx key : String) (hkey : key ≠ "") {p : List String} (hp : p ≠ []) :
    joinPfx (if pfx = "" then key else pfx ++ "." ++ key) p = joinPfx pfx (key :: p) := by
  obtain ⟨q, p', rfl⟩ : ∃ q p', p = q :: p' := by
    cases p with
    | nil => exact absurd rfl hp
    | cons q p' => exact ⟨q, p', rfl⟩
  have hdj : dotJoin (key :: q :: p') = key ++ "." ++ dotJoin (q :: p') := rfl
  by_cases hpfx : pfx = ""
  · subst hpfx
    rw [if_pos rfl, joinPfx, joinPfx, if_pos rfl, if_neg hkey, hdj]
  · rw [if_neg hpfx, joinPfx, joinPfx, if_neg hpfx,
        if_neg (append_dot_ne_empty pfx key), hdj]
    apply String.ext
    simp [String.data_append, List.append_assoc]

/-- The general form of C7's amended claim, for an arbitrary accumulated
prefix. -/
theorem flattenTranslations_eq_stringLeaves :
    ∀ (fields : List (String × TransValue)) (pfx : String), keysNonempty fields →
      flattenTranslations fields pfx
        = (stringLeaves fields).map (fun ps => (joinPfx pfx ps.1, ps.2)) := by
  intro fields pfx
  induction fields, pfx using flattenTranslations.induct with
  | case1 pfx =>
    intro _
    rw [flattenTranslations_nil, stringLeaves_nil]
    rfl
  | case2 key value rest pfx fullKey ihval ihrest =>
    intro hk
    obtain ⟨hk1, hkv, hkrest⟩ := (keysNonempty_cons key value rest).mp hk
    cases value with
    | str s =>
      rw [flattenTranslations_cons_str, stringLeaves_cons_str, List.map_cons,
          ihrest hkrest]
      have hj : joinPfx pfx [key] = if pfx = "" then key else pfx ++ "." ++ key := rfl
      rw [hj]
    | obj fields' =>
      have hrec : keysNonempty fields' →
          flattenTranslations fields' fullKey
            = (stringLeaves fields').map (fun ps => (joinPfx fullKey ps.1, ps.2)) := ihval
      have hkv' : keysNonempty fields' := hkv
      rw [flattenTranslations_cons_obj, stringLeaves_cons_obj, List.map_append,
          ihrest hkrest, List.map_map]
      congr 1
      have hfk : fullKey = if pfx = "" then key else pfx ++ "." ++ key := rfl
      rw [← hfk, hrec hkv']
      apply List.map_congr_left
      intro ps hps
      show (joinPfx fullKey ps.1, ps.2) = (joinPfx pfx (key :: ps.1), ps.2)
      rw [hfk, joinPfx_cons pfx key hk1 (stringLeaves_path_ne_nil fields' ps hps)]
    | num n =>
      rw [flattenTranslations_cons_num, stringLeaves_cons_num, ihrest hkrest]
    | null =>
      rw [flattenTranslations_cons_null, stringLeaves_cons_null, ihrest hkrest]
    | arr xs =>
      rw [flattenTranslations_cons_arr, stringLeaves_cons_arr, ihrest hkrest]

/-- **C7 — counterexample.** The claim that `flattenTranslations` emits the
dot-joined path for every string leaf fails for an empty top-level key: the
empty accumulated prefix joins without a separator, so the leaf at path
`["", "a"]` is emitted under the key `"a"` rather than `".a"`. -/
theorem flattenTranslations_dot_join_counterexample :
    flattenTranslations [("", TransValue.obj [("a", TransValue.str "x")])] "" = [("a", "x")] ∧
    (stringLeaves [("", TransValue.obj [("a", TransValue.str "x")])]).map
      (fun ps => (dotJoin ps.1, ps.2)) = [(".a", "x")] ∧
    flattenTranslations [("", TransValue.obj [("a", TransValue.str "x")])] ""
      ≠ (stringLeaves [("", TransValue.obj [("a", TransValue.str "x")])]).map
          (fun ps => (dotJoin ps.1, ps.2)) := by
  have h1 : flattenTranslations [("", TransValue.obj [("a", TransValue.str "x")])] ""
      = [("a", "x")] := by
    rw [flattenTranslations_cons_obj, flattenTranslations_nil,
        flattenTranslations_cons_str, flattenTranslations_nil]
    simp
  have h2 : (stringLeaves [("", TransValue.obj [("a", TransValue.str "x")])]).map
      (fun ps => (dotJoin ps.1, ps.2)) = [(".a", "x")] := by
    rw [stringLeaves_cons_obj, stringLeaves_cons_str, stringLeaves_nil]
    decide
  refine ⟨h1, h2, ?_⟩
  rw [h1, h2]
  decide

/-- **C7 (amended).** For every translation object whose keys are all
non-empty strings, `flattenTranslations` returns exactly the fully
materialized depth-first sequence of (dot-joined path, value) pairs of its
string leaves, in the input's own enumeration order, silently skipping
non-string, non-object leaves (numbers, arrays, null); being a pure function,
a second call on the same input reproduces the same sequence.  (With an
empty-string key the accumulated prefix can be empty, and the next segment is
then joined without the separating dot — the only deviation from
dot-joining.) -/
theorem flattenTranslations_spec (fields : List (String × TransValue))
    (h : keysNonempty fields) :
    flattenTranslations fields ""
      = (stringLeaves fields).map (fun ps => (dotJoin ps.1, ps.2)) := by
  rw [flattenTranslations_eq_stringLeaves fields "" h]
  apply List.map_congr_left
  intro ps _
  rw [joinPfx_nil_pfx]

/-- Witness for the amended C7 on the spec's own example
`{a: "x", b: 5, c: {d: "y"}}`. -/
theorem flattenTranslations_spec_witness :
    flattenTranslations
        [("a", TransValue.str "x"), ("b", TransValue.num 5),
         ("c", TransValue.obj [("d", TransValue.str "y")])] ""
      = (stringLeaves
          [("a", TransValue.str "x"), ("b", TransValue.num 5),
           ("c", TransValue.obj [("d", TransValue.str "y")])]).map
          (fun ps => (dotJoin ps.1, ps.2)) :=
  flattenTranslations_spec _ (by
    rw [keysNonempty_cons]
    refine ⟨by decide, trivial, ?_⟩
    rw [keysNonempty_cons]
    refine ⟨by decide, trivial, ?_⟩
    rw [keysNonempty_cons]
    refine ⟨by decide, ?_, keysNonempty_nil⟩
    show keysNonempty [("d", TransValue.str "y")]
    rw [keysNonempty_cons]
    exact ⟨by decide, trivial, keysNonempty_nil⟩)

/-! ## C1 and C10: eviction -/

theorem insertByTs_perm (x : CleanupItem) :
    ∀ l : List CleanupItem, List.Perm (insertByTs x l) (x :: l) := by
  intro l
  induction l with
  | nil => exact List.Perm.refl _
  | cons y ys ih =>
    rw [insertByTs]
    split
    · exact List.Perm.refl _
    · exact (ih.cons y).trans (List.Perm.swap x y ys)

theorem sortByTs_perm : ∀ l : List CleanupItem, List.Perm (sortByTs l) l := by
  intro l
  induction l with
  | nil => exact List.Perm.refl _
  | cons x xs ih =>
    rw [sortByTs]
    exact (insertByTs_perm x (sortByTs xs)).trans (ih.cons x)

theorem insertByTs_pairwise (x : CleanupItem) :
    ∀ l : List CleanupItem,
      l.Pairwise (fun a b => a.timestamp ≤ b.timestamp) →
      (insertByTs x l).Pairwise (fun a b => a.timestamp ≤ b.timestamp) := by
  intro l
  induction l with
  | nil =>
    intro _
    exact List.pairwise_singleton _ x
  | cons y ys ih =>
    intro h
    rw [List.pairwise_cons] at h
    obtain ⟨hy, hys⟩ := h
    rw [insertByTs]
    split
    · rename_i hxy
      rw [List.pairwise_cons]
      refine ⟨?_, List.pairwise_cons.mpr ⟨hy, hys⟩⟩
      intro z hz
      rcases List.mem_cons.mp hz with h | h
      · subst h; exact hxy
      · exact Nat.le_trans hxy (hy z h)
    · rename_i hxy
      rw [List.pairwise_cons]
      constructor
      · intro z hz
        have hz' : z ∈ x :: ys := (insertByTs_perm x ys).mem_iff.mp hz
        rcases List.mem_cons.mp hz' with h | h
        · subst h; exact Nat.le_of_not_le hxy
        · exact hy z h
      · exact ih hys

theorem sortByTs_pairwise :
    ∀ l : List CleanupItem,
      (sortByTs l).Pairwise (fun a b => a.timestamp ≤ b.timestamp) := by
  intro l
  induction l with
  | nil => exact List.Pairwise.nil
  | cons x xs ih =>
    rw [sortByTs]
    exact insertByTs_pairwise x (sortByTs xs) ih

theorem contains_iff_mem {l : List String} {x : String} : l.contains x = true ↔ x ∈ l := by
  simp [List.contains_eq_any_beq]

theorem mapDelete_eq_filter {α : Type} (k : String) :
    ∀ m : List (String × α), (m.map Prod.fst).Nodup →
      mapDelete m k = m.filter (fun kv => !(kv.1 == k)) := by
  intro m
  induction m with
  | nil => intro _; rfl
  | cons a t ih =>
    intro hnd
    rw [List.map_cons, List.nodup_cons] at hnd
    obtain ⟨hka, hndt⟩ := hnd
    by_cases ha : a.1 = k
    · rw [mapDelete, List.eraseP_cons_of_pos (by simp [ha]), List.filter_cons_of_neg
          (by simp [ha])]
      symm
      rw [List.filter_eq_self]
      intro kv hkv
      have : kv.1 ≠ k := by
        intro hkk
        apply hka
        have hav : a.1 = kv.1 := by rw [ha, hkk]
        rw [hav]
        exact List.mem_map_of_mem Prod.fst hkv
      simp [this]
    · rw [mapDelete, List.eraseP_cons_of_neg (by simp [ha]), List.filter_cons_of_pos
          (by simp [ha])]
      rw [← ih hndt]
      rfl

theorem nodup_keys_filter {α : Type} (p : String × α → Bool) {m : List (String × α)}
    (h : (m.map Prod.fst).Nodup) : ((m.filter p).map Prod.fst).Nodup :=
  List.Nodup.sublist (List.Sublist.map Prod.fst (List.filter_sublist m)) h

theorem foldl_mapDelete_eq_filter {α : Type} :
    ∀ (ks : List String) (m : List (String × α)), (m.map Prod.fst).Nodup →
      ks.foldl mapDelete m = m.filter (fun kv => !(ks.contains kv.1)) := by
  intro ks
  induction ks with
  | nil =>
    intro m _
    rw [List.foldl_nil]
    symm
    rw [List.filter_eq_self]
    intro kv _
    rfl
  | cons k ks ih =>
    intro m hnd
    rw [List.foldl_cons, mapDelete_eq_filter k m hnd,
        ih _ (nodup_keys_filter _ hnd), List.filter_filter]
    apply List.filter_congr
    intro kv _
    rw [List.contains_cons]
    cases hk : kv.1 == k <;> cases hks : ks.contains kv.1 <;> rfl

/-- Entries whose key occurs among the keys of the prefix `r` are exactly the
prefix: filtering them out of `r ++ d` leaves `d`. -/
theorem filter_keys_not_in_prefix (r d : List CleanupItem)
    (hnd : (r ++ d).Nodup)
    (hinj : ∀ it ∈ r ++ d, ∀ it2 ∈ r ++ d, it.key = it2.key → it = it2) :
    List.filter (fun it => !((r.map CleanupItem.key).contains it.key)) (r ++ d) = d := by
  rw [List.filter_append]
  have h1 : List.filter (fun it => !((r.map CleanupItem.key).contains it.key)) r = [] := by
    rw [List.filter_eq_nil_iff]
    intro it hit
    have hc : (r.map CleanupItem.key).contains it.key = true :=
      contains_iff_mem.mpr (List.mem_map_of_mem CleanupItem.key hit)
    rw [hc]
    decide
  have h2 : List.filter (fun it => !((r.map CleanupItem.key).contains it.key)) d = d := by
    rw [List.filter_eq_self]
    intro it hit
    cases hc : (r.map CleanupItem.key).contains it.key with
    | false => rfl
    | true =>
      exfalso
      obtain ⟨it2, hit2, hit2key⟩ := List.mem_map.mp (contains_iff_mem.mp hc)
      have heq : it2 = it := hinj it2 (List.mem_append_left d hit2) it
        (List.mem_append_right r hit) hit2key
      subst heq
      exact (List.disjoint_of_nodup_append hnd) hit2 hit
  rw [h1, h2, List.nil_append]

/-- The common core of the two eviction claims: when the store is over
capacity, eviction keeps exactly `maxSize` of the original entries and every
evicted entry's effective timestamp is at most every survivor's. -/
theorem cleanup_core (m : MemoryMap) (maxSize : Nat)
    (hkeys : (m.map Prod.fst).Nodup) (hlt : maxSize < m.length) :
    ∃ m', cleanupMemoryMap maxSize (some m) = some m' ∧
      m'.length = maxSize ∧
      (∀ kv ∈ m', kv ∈ m) ∧
      (∀ kv ∈ m', ∀ kv2 ∈ m, kv2 ∉ m' → effTimestamp kv2.2 ≤ effTimestamp kv.2) := by
  have hinj : ∀ kv ∈ m, ∀ kv2 ∈ m, kv.1 = kv2.1 → kv = kv2 := by
    intro kv h1 kv2 h2 hk
    exact List.inj_on_of_nodup_map hkeys h1 h2 hk
  have hdef : cleanupMemoryMap maxSize (some m)
      = some ((((sortByTs (m.map (fun kv => CleanupItem.mk kv.1 kv.2 (effTimestamp kv.2)))).take
          (m.length - maxSize)).map CleanupItem.key).foldl mapDelete m) := by
    show (if m.length ≤ maxSize then some m else _) = _
    rw [if_neg (Nat.not_le.mpr hlt)]
  have hperm : List.Perm
      (sortByTs (m.map (fun kv => CleanupItem.mk kv.1 kv.2 (effTimestamp kv.2))))
      (m.map (fun kv => CleanupItem.mk kv.1 kv.2 (effTimestamp kv.2))) := sortByTs_perm _
  have hitemkeys : (m.map (fun kv => CleanupItem.mk kv.1 kv.2 (effTimestamp kv.2))).map
      CleanupItem.key = m.map Prod.fst := by
    rw [List.map_map]
    rfl
  have hsortkeys : ((sortByTs (m.map (fun kv => CleanupItem.mk kv.1 kv.2
      (effTimestamp kv.2)))).map CleanupItem.key).Nodup :=
    ((hperm.map CleanupItem.key).symm).nodup (hitemkeys ▸ hkeys)
  have hsortnodup : (sortByTs (m.map (fun kv => CleanupItem.mk kv.1 kv.2
      (effTimestamp kv.2)))).Nodup := List.Nodup.of_map CleanupItem.key hsortkeys
  have hsortinj : ∀ it ∈ sortByTs (m.map (fun kv => CleanupItem.mk kv.1 kv.2
        (effTimestamp kv.2))),
      ∀ it2 ∈ sortByTs (m.map (fun kv => CleanupItem.mk kv.1 kv.2 (effTimestamp kv.2))),
      it.key = it2.key → it = it2 := by
    intro it h1 it2 h2 hk
    exact List.inj_on_of_nodup_map hsortkeys h1 h2 hk
  -- membership characterization of the removed keys
  have hremchar : ∀ kv ∈ m,
      ((((sortByTs (m.map (fun kv => CleanupItem.mk kv.1 kv.2 (effTimestamp kv.2)))).take
        (m.length - maxSize)).map CleanupItem.key).contains kv.1 = true
      ↔ CleanupItem.mk kv.1 kv.2 (effTimestamp kv.2)
          ∈ (sortByTs (m.map (fun kv => CleanupItem.mk kv.1 kv.2 (effTimestamp kv.2)))).take
            (m.length - maxSize)) := by
    intro kv hkv
    rw [contains_iff_mem]
    constructor
    · intro h
      obtain ⟨it, hit, hitkey⟩ := List.mem_map.mp h
      have hitm : it ∈ m.map (fun kv => CleanupItem.mk kv.1 kv.2 (effTimestamp kv.2)) :=
        hperm.mem_iff.mp (List.mem_of_mem_take hit)
      obtain ⟨kv2, hkv2, hkv2it⟩ := List.mem_map.mp hitm
      have hkeq : kv2.1 = kv.1 := by rw [← hitkey, ← hkv2it]
      have heq : kv2 = kv := hinj kv2 hkv2 kv hkv hkeq
      subst heq
      rw [hkv2it]
      exact hit
    · intro h
      exact List.mem_map.mpr ⟨_, h, rfl⟩
  have hfiltake : List.filter (fun it =>
        !((((sortByTs (m.map (fun kv => CleanupItem.mk kv.1 kv.2
          (effTimestamp kv.2)))).take (m.length - maxSize)).map
            CleanupItem.key).contains it.key))
      (sortByTs (m.map (fun kv => CleanupItem.mk kv.1 kv.2 (effTimestamp kv.2))))
      = (sortByTs (m.map (fun kv => CleanupItem.mk kv.1 kv.2 (effTimestamp kv.2)))).drop
          (m.length - maxSize) := by
    have hres := filter_keys_not_in_prefix
      ((sortByTs (m.map (fun kv => CleanupItem.mk kv.1 kv.2 (effTimestamp kv.2)))).take
        (m.length - maxSize))
      ((sortByTs (m.map (fun kv => CleanupItem.mk kv.1 kv.2 (effTimestamp kv.2)))).drop
        (m.length - maxSize))
      (by rw [List.take_append_drop]; exact hsortnodup)
      (by rw [List.take_append_drop]; exact hsortinj)
    rw [List.take_append_drop] at hres
    exact hres
  rw [hdef, foldl_mapDelete_eq_filter _ m hkeys]
  refine ⟨_, rfl, ?_, ?_, ?_⟩
  · -- length
    have hmapfil : (m.filter (fun kv =>
        !((((sortByTs (m.map (fun kv => CleanupItem.mk kv.1 kv.2 (effTimestamp kv.2)))).take
          (m.length - maxSize)).map CleanupItem.key).contains kv.1))).map
          (fun kv => CleanupItem.mk kv.1 kv.2 (effTimestamp kv.2))
        = (m.map (fun kv => CleanupItem.mk kv.1 kv.2 (effTimestamp kv.2))).filter
          (fun it =>
            !((((sortByTs (m.map (fun kv => CleanupItem.mk kv.1 kv.2
              (effTimestamp kv.2)))).take (m.length - maxSize)).map
                CleanupItem.key).contains it.key)) := by
      rw [List.filter_map]
      rfl
    have hfilperm : List.Perm
        ((m.map (fun kv => CleanupItem.mk kv.1 kv.2 (effTimestamp kv.2))).filter
          (fun it =>
            !((((sortByTs (m.map (fun kv => CleanupItem.mk kv.1 kv.2
              (effTimestamp kv.2)))).take (m.length - maxSize)).map
                CleanupItem.key).contains it.key)))
        (List.filter (fun it =>
            !((((sortByTs (m.map (fun kv => CleanupItem.mk kv.1 kv.2
              (effTimestamp kv.2)))).take (m.length - maxSize)).map
                CleanupItem.key).contains it.key))
          (sortByTs (m.map (fun kv => CleanupItem.mk kv.1 kv.2 (effTimestamp kv.2))))) :=
      (hperm.symm).filter _
    have hlen1 := congrArg List.length hmapfil
    rw [List.length_map] at hlen1
    rw [hlen1, hfilperm.length_eq, hfiltake, List.length_drop, hperm.length_eq,
        List.length_map]
    omega
  · intro kv hkv
    exact (List.mem_filter.mp hkv).1
  · intro kv hkv kv2 hkv2 hkv2not
    have hkvm := (List.mem_filter.mp hkv).1
    have hkvpred := (List.mem_filter.mp hkv).2
    have hkv2pred : (((((sortByTs (m.map (fun kv => CleanupItem.mk kv.1 kv.2
        (effTimestamp kv.2)))).take (m.length - maxSize)).map
          CleanupItem.key).contains kv2.1)) = true := by
      cases hcon : ((((sortByTs (m.map (fun kv => CleanupItem.mk kv.1 kv.2
          (effTimestamp kv.2)))).take (m.length - maxSize)).map
            CleanupItem.key).contains kv2.1) with
      | true => rfl
      | false =>
        exfalso
        refine hkv2not (List.mem_filter.mpr ⟨hkv2, ?_⟩)
        rw [hcon]
        decide
    have hkv2rem : CleanupItem.mk kv2.1 kv2.2 (effTimestamp kv2.2)
        ∈ (sortByTs (m.map (fun kv => CleanupItem.mk kv.1 kv.2 (effTimestamp kv.2)))).take
          (m.length - maxSize) := (hremchar kv2 hkv2).mp hkv2pred
    have hkvnotrem : CleanupItem.mk kv.1 kv.2 (effTimestamp kv.2)
        ∉ (sortByTs (m.map (fun kv => CleanupItem.mk kv.1 kv.2 (effTimestamp kv.2)))).take
          (m.length - maxSize) := by
      intro hmem
      have hcontr := (hremchar kv hkvm).mpr hmem
      rw [hcontr] at hkvpred
      cases hkvpred
    have hkvsort : CleanupItem.mk kv.1 kv.2 (effTimestamp kv.2)
        ∈ sortByTs (m.map (fun kv => CleanupItem.mk kv.1 kv.2 (effTimestamp kv.2))) :=
      hperm.mem_iff.mpr (List.mem_map_of_mem _ hkvm)
    have hkvdrop : CleanupItem.mk kv.1 kv.2 (effTimestamp kv.2)
        ∈ (sortByTs (m.map (fun kv => CleanupItem.mk kv.1 kv.2 (effTimestamp kv.2)))).drop
          (m.length - maxSize) := by
      have hsplit := (List.take_append_drop (m.length - maxSize)
        (sortByTs (m.map (fun kv => CleanupItem.mk kv.1 kv.2 (effTimestamp kv.2))))).symm
      rw [hsplit] at hkvsort
      rcases List.mem_append.mp hkvsort with h | h
      · exact absurd h hkvnotrem
      · exact h
    have hpair := sortByTs_pairwise (m.map (fun kv => CleanupItem.mk kv.1 kv.2
      (effTimestamp kv.2)))
    rw [← List.take_append_drop (m.length - maxSize)
      (sortByTs (m.map (fun kv => CleanupItem.mk kv.1 kv.2 (effTimestamp kv.2)))),
      List.pairwise_append] at hpair
    exact hpair.2.2 _ hkv2rem _ hkvdrop


/-- **C1.** Eviction removes nothing when the entry count is at most
`maxSize`; otherwise it removes exactly `count - maxSize` entries, keeping
exactly `maxSize` of the original entries, and — when the entries' `trackedAt`
timestamps are pairwise distinct — every evicted entry has a strictly smaller
timestamp than every surviving entry, i.e. the `maxSize` most recently
tracked values survive. -/
theorem cleanupMemoryMap_keeps_most_recent :
    ∀ (m : MemoryMap) (maxSize : Nat),
      (m.map Prod.fst).Nodup →
      (∀ kv ∈ m, ((kv.2).metadata?.bind (fun md => md.trackedAt?)).isSome = true) →
      (m.map (fun kv => effTimestamp kv.2)).Nodup →
      (m.length ≤ maxSize → cleanupMemoryMap maxSize (some m) = some m) ∧
      (maxSize < m.length →
        ∃ m', cleanupMemoryMap maxSize (some m) = some m' ∧
          m'.length = maxSize ∧
          (∀ kv ∈ m', kv ∈ m) ∧
          (∀ kv ∈ m', ∀ kv2 ∈ m, kv2 ∉ m' →
            effTimestamp kv2.2 < effTimestamp kv.2)) := by
  intro m maxSize hkeys _ hts
  constructor
  · intro hle
    show (if m.length ≤ maxSize then some m else _) = some m
    rw [if_pos hle]
  · intro hlt
    obtain ⟨m', hdef, hlen, hsub, hle⟩ := cleanup_core m maxSize hkeys hlt
    refine ⟨m', hdef, hlen, hsub, ?_⟩
    intro kv hkv kv2 hkv2 hkv2not
    have hne : kv2 ≠ kv := by
      intro h
      exact hkv2not (h ▸ hkv)
    have htsne : effTimestamp kv2.2 ≠ effTimestamp kv.2 := by
      intro h
      exact hne (List.inj_on_of_nodup_map hts hkv2 (hsub kv hkv) h)
    exact Nat.lt_of_le_of_ne (hle kv hkv kv2 hkv2 hkv2not) htsne

/-- Witness for C1: a three-entry store with distinct timestamps and
`maxSize = 2` keeps exactly the two most recently tracked entries. -/
theorem cleanupMemoryMap_keeps_most_recent_witness :
    ∃ m', cleanupMemoryMap 2 (some [
        ("a", { ids := ["k1"], type := "text",
                metadata? := some { ns? := none, lang? := none, trackedAt? := some 30 } }),
        ("b", { ids := ["k2"], type := "text",
                metadata? := some { ns? := none, lang? := none, trackedAt? := some 10 } }),
        ("c", { ids := ["k3"], type := "text",
                metadata? := some { ns? := none, lang? := none, trackedAt? := some 20 } })])
      = some m' ∧
      m'.length = 2 ∧
      (∀ kv ∈ m', kv ∈ ([
        ("a", { ids := ["k1"], type := "text",
                metadata? := some { ns? := none, lang? := none, trackedAt? := some 30 } }),
        ("b", { ids := ["k2"], type := "text",
                metadata? := some { ns? := none, lang? := none, trackedAt? := some 10 } }),
        ("c", { ids := ["k3"], type := "text",
                metadata? := some { ns? := none, lang? := none, trackedAt? := some 20 } })]
        : MemoryMap)) ∧
      (∀ kv ∈ m', ∀ kv2 ∈ ([
        ("a", { ids := ["k1"], type := "text",
                metadata? := some { ns? := none, lang? := none, trackedAt? := some 30 } }),
        ("b", { ids := ["k2"], type := "text",
                metadata? := some { ns? := none, lang? := none, trackedAt? := some 10 } }),
        ("c", { ids := ["k3"], type := "text",
                metadata? := some { ns? := none, lang? := none, trackedAt? := some 20 } })]
        : MemoryMap), kv2 ∉ m' → effTimestamp kv2.2 < effTimestamp kv.2) :=
  (cleanupMemoryMap_keeps_most_recent _ 2 (by decide) (by decide) (by decide)).2 (by decide)

/-- **C10.** During eviction an entry with missing metadata or a missing
`trackedAt` is ordered as if its timestamp were `0`: whenever the store
exceeds `maxSize`, such an entry can only survive if every entry with a
positive `trackedAt` survives — i.e. all timestamp-less entries are removed
before any positively-timestamped entry. -/
theorem cleanupMemoryMap_missing_timestamp_first :
    ∀ (m : MemoryMap) (maxSize : Nat),
      (m.map Prod.fst).Nodup →
      maxSize < m.length →
      ∃ m', cleanupMemoryMap maxSize (some m) = some m' ∧
        ∀ kv ∈ m, (kv.2).metadata?.bind (fun md => md.trackedAt?) = none →
          kv ∈ m' →
          ∀ kv2 ∈ m, 0 < effTimestamp kv2.2 → kv2 ∈ m' := by
  intro m maxSize hkeys hlt
  obtain ⟨m', hdef, _, _, hle⟩ := cleanup_core m maxSize hkeys hlt
  refine ⟨m', hdef, ?_⟩
  intro kv _ hnone hkv kv2 hkv2 hpos
  by_contra hkv2not
  have h := hle kv hkv kv2 hkv2 hkv2not
  have hzero : effTimestamp kv.2 = 0 := by
    rw [effTimestamp, hnone]
    rfl
  rw [hzero] at h
  omega

/-- Witness for C10: with a metadata-less entry inserted first and
`maxSize = 2`, the metadata-less entry is evicted while both positively
timestamped entries survive. -/
theorem cleanupMemoryMap_missing_timestamp_first_witness :
    ∃ m', cleanupMemoryMap 2 (some [
        ("b", { ids := ["k2"], type := "text", metadata? := none }),
        ("a", { ids := ["k1"], type := "text",
                metadata? := some { ns? := none, lang? := none, trackedAt? := some 30 } }),
        ("c", { ids := ["k3"], type := "text",
                metadata? := some { ns? := none, lang? := none, trackedAt? := some 20 } })])
      = some m' ∧
      ∀ kv ∈ ([
        ("b", { ids := ["k2"], type := "text", metadata? := none }),
        ("a", { ids := ["k1"], type := "text",
                metadata? := some { ns? := none, lang? := none, trackedAt? := some 30 } }),
        ("c", { ids := ["k3"], type := "text",
                metadata? := some { ns? := none, lang? := none, trackedAt? := some 20 } })]
        : MemoryMap), (kv.2).metadata?.bind (fun md => md.trackedAt?) = none →
        kv ∈ m' →
        ∀ kv2 ∈ ([
        ("b", { ids := ["k2"], type := "text", metadata? := none }),
        ("a", { ids := ["k1"], type := "text",
                metadata? := some { ns? := none, lang? := none, trackedAt? := some 30 } }),
        ("c", { ids := ["k3"], type := "text",
                metadata? := some { ns? := none, lang? := none, trackedAt? := some 20 } })]
        : MemoryMap), 0 < effTimestamp kv2.2 → kv2 ∈ m' :=
  cleanupMemoryMap_missing_timestamp_first _ 2 (by decide) (by decide)

end ContentStorage
